import Mathlib

set_option maxRecDepth 8000

namespace OpenSim

/-- The path separator used by ComponentPath: a forward slash
(ComponentPath.h documents that a ComponentPath "uses a forward-slash as a
separator always"). -/
def separator : Char := '/'

/-- Modelled from the spec: the set of invalid characters for a component
name.  ComponentPath.h documents them as back-slash, forward-slash,
asterisk and plus-sign; the private constant holding them is declared but
its definition is not among the given sources. -/
def invalidChars : List Char := ['\\', '/', '*', '+']

/-- The error kinds of the path engine (spec section 7): invalid character,
stepping above an absolute root, index out of range, and misuse of the
absolute/relative resolution operations. -/
inductive PathError where
  | invalidCharacter
  | outOfRoot
  | outOfRange
  | misuse
deriving DecidableEq

/-- A path segment, represented as its list of characters. -/
abbrev Seg := List Char

/-- The current-directory token. -/
def dotSeg : Seg := ['.']

/-- The up-one-level token. -/
def ddSeg : Seg := ['.', '.']

/-- Whether a segment contains one of the invalid characters. -/
def segInvalid (t : Seg) : Bool := t.any (fun c => decide (c ∈ invalidChars))

/-- Modelled from the spec: splitting a raw character string at every
separator occurrence, keeping the (possibly empty) chunks between them.
The result is always a non-empty list of chunks.  This is the auxiliary
step of normalize's tokenization ("split raw on runs of one-or-more
consecutive separators, discarding empty tokens"): the empty chunks are
discarded by tokenize below. -/
def splitRuns : List Char → List Seg
  | [] => [[]]
  | c :: cs =>
    match splitRuns cs with
    | [] => [[]]
    | t :: ts => if c = separator then [] :: t :: ts else (c :: t) :: ts

/-- Modelled from the spec: the token sequence of a raw string — split on
separators and discard the empty tokens (this collapses doubled separators
and trims leading/trailing separators). -/
def tokenize (cs : List Char) : List Seg :=
  (splitRuns cs).filter (fun t => !t.isEmpty)

/-- Join a list of segments with single separators between them. -/
def joinSegs : List Seg → List Char
  | [] => []
  | [s] => s
  | s :: t :: rest => s ++ separator :: joinSegs (t :: rest)

/-- Whether a raw string denotes an absolute path: it begins with the
separator (spec section 4.1, step 1). -/
def isAbsoluteStr : List Char → Bool
  | [] => false
  | c :: _ => c == separator

/-- Modelled from the spec: reassembly of normalize's output (step 4) —
join the output segments with the separator and prefix a separator when
absolute; an empty absolute result is the root "/" and an empty relative
result is the empty string. -/
def render (isAbs : Bool) (segs : List Seg) : List Char :=
  if isAbs then separator :: joinSegs segs else joinSegs segs

/-- Modelled from the spec: one step of normalize's left-to-right scan
(spec section 4.1, step 3) acting on the output stack (top at the head).
A `.` token is discarded; a `..` token pops a real segment, and otherwise
(stack empty or topped by a pending `..` run) fails with an out-of-root
error on an absolute path or accumulates a leading `..` on a relative one;
any other token is validated against the invalid characters and pushed. -/
def scanStep (isAbs : Bool) (stack : List Seg) (tok : Seg) :
    Except PathError (List Seg) :=
  if tok = dotSeg then .ok stack
  else if tok = ddSeg then
    match stack with
    | [] => if isAbs then .error .outOfRoot else .ok [ddSeg]
    | top :: stack2 =>
      if top = ddSeg then
        if isAbs then .error .outOfRoot else .ok (ddSeg :: top :: stack2)
      else .ok stack2
  else if segInvalid tok then .error .invalidCharacter
  else .ok (tok :: stack)

/-- Modelled from the spec: normalize's left-to-right scan over the token
sequence, threading the output stack and stopping at the first violation
(fail-fast).  The final output is the stack from bottom to top. -/
def scanTokens (isAbs : Bool) : List Seg → List Seg → Except PathError (List Seg)
  | stack, [] => .ok stack.reverse
  | stack, tok :: rest =>
    match scanStep isAbs stack tok with
    | .error e => .error e
    | .ok stack2 => scanTokens isAbs stack2 rest

/-- Modelled from the spec: ComponentPath::normalize on character lists.
The implementation of ComponentPath::normalize is declared in
ComponentPath.h but is not among the given sources; this definition
follows spec section 4.1 — determine the absolute flag, tokenize,
scan with `.`/`..` resolution and character validation, and reassemble. -/
def normalizeChars (cs : List Char) : Except PathError (List Char) :=
  match scanTokens (isAbsoluteStr cs) [] (tokenize cs) with
  | .error e => .error e
  | .ok segs => .ok (render (isAbsoluteStr cs) segs)

/-- Modelled from the spec: ComponentPath::normalize, on strings. -/
def normalize (s : String) : Except PathError String :=
  match normalizeChars s.data with
  | .error e => .error e
  | .ok cs => .ok (String.mk cs)

/-- Strip trailing separators from a character string. -/
def stripTrailingSeps (cs : List Char) : List Char :=
  (cs.reverse.dropWhile (fun c => c == separator)).reverse

/-- Modelled from the spec: ComponentPath::split on character lists.  The
implementation is declared in ComponentPath.h but is not among the given
sources; this definition follows spec section 4.1 — purely syntactic: if no
separator is present the head is empty and the tail is the whole input
(covering the empty input); otherwise the tail is the substring after the
last separator and the head is the part up to it with trailing separators
stripped, except that a head reduced to nothing keeps a single (root)
separator. -/
def splitChars (cs : List Char) : List Char × List Char :=
  if separator ∈ cs then
    (if (stripTrailingSeps ((cs.reverse.dropWhile (fun c => c != separator)).reverse)).isEmpty
      then [separator]
      else stripTrailingSeps ((cs.reverse.dropWhile (fun c => c != separator)).reverse),
     (cs.reverse.takeWhile (fun c => c != separator)).reverse)
  else ([], cs)

/-- Modelled from the spec: ComponentPath::split, on strings. -/
def split (s : String) : String × String :=
  (String.mk (splitChars s.data).1, String.mk (splitChars s.data).2)

/-- The path value type of the data model (spec section 3): an ordered list
of segments in root-to-leaf order together with the absolute flag. -/
structure ComponentPath where
  segments : List Seg
  isAbsolute : Bool
deriving DecidableEq

/-- Modelled from the spec: Path::toString, the canonical string form — the
segments joined by the separator, prefixed by the separator when absolute
(the Path base class is not among the given sources). -/
def ComponentPath.toString (p : ComponentPath) : List Char :=
  render p.isAbsolute p.segments

/-- ComponentPath::operator==, defined inline in ComponentPath.h: two paths
are equal exactly when their canonical string forms coincide. -/
def ComponentPath.eq (a b : ComponentPath) : Bool :=
  a.toString == b.toString

/-- ComponentPath::operator!=, defined inline in ComponentPath.h. -/
def ComponentPath.ne (a b : ComponentPath) : Bool :=
  a.toString != b.toString

/-- Modelled from the spec: the ComponentPath constructor from a string —
apply normalize, then read the segment list and absolute flag back off the
normalized string; failures of normalize propagate. -/
def ComponentPath.fromString (s : String) : Except PathError ComponentPath :=
  match normalizeChars s.data with
  | .error e => .error e
  | .ok cs => .ok ⟨tokenize cs, isAbsoluteStr cs⟩

/-- Modelled from the spec: the ComponentPath constructor from a segment
vector and an absolute flag — it stores both directly and does not
re-validate characters or recompute relative collapsing (the caller is
trusted to supply an already-canonical segment list). -/
def ComponentPath.fromVec (segs : List Seg) (isAbs : Bool) : ComponentPath :=
  ⟨segs, isAbs⟩

/-- Modelled from the spec: ComponentPath::formAbsolutePath — an absolute
path is returned unchanged; otherwise the base must be absolute (misuse
error), the base's segments are concatenated with this path's segments and
the same `..`-collapsing rule as normalize is applied, so stepping above
the root is still an out-of-root error. -/
def ComponentPath.formAbsolutePath (p otherPath : ComponentPath) :
    Except PathError ComponentPath :=
  if p.isAbsolute then .ok p
  else if !otherPath.isAbsolute then .error .misuse
  else
    match scanTokens true [] (otherPath.segments ++ p.segments) with
    | .error e => .error e
    | .ok segs => .ok ⟨segs, true⟩

/-- Strip the longest common leading run from two segment lists, returning
what remains of each. -/
def stripCommon : List Seg → List Seg → List Seg × List Seg
  | x :: xs, y :: ys =>
    if x = y then stripCommon xs ys else (x :: xs, y :: ys)
  | xs, ys => (xs, ys)

/-- The length of the longest common leading run of two segment lists. -/
def commonLen : List Seg → List Seg → Nat
  | x :: xs, y :: ys => if x = y then commonLen xs ys + 1 else 0
  | _, _ => 0

/-- Modelled from the spec: ComponentPath::formRelativePath — both paths
must be absolute (misuse error otherwise); the result is one `..` for each
of the other path's segments beyond the common leading run, followed by
this path's segments beyond it, and is relative. -/
def ComponentPath.formRelativePath (p otherPath : ComponentPath) :
    Except PathError ComponentPath :=
  if p.isAbsolute && otherPath.isAbsolute then
    .ok ⟨List.replicate (stripCommon p.segments otherPath.segments).2.length ddSeg
          ++ (stripCommon p.segments otherPath.segments).1, false⟩
  else .error .misuse

/-- Modelled from the spec: ComponentPath::getParentPath — all but the last
segment, with the absolute flag unchanged; on a root or empty path this
leaves the path unchanged. -/
def ComponentPath.getParentPath (p : ComponentPath) : ComponentPath :=
  ⟨p.segments.dropLast, p.isAbsolute⟩

/-- Modelled from the spec: ComponentPath::getSubcomponentNameAtLevel — the
segment at the given 0-based position, or an out-of-range error when the
index is not below the segment count. -/
def ComponentPath.getSubcomponentNameAtLevel (p : ComponentPath) (index : Nat) :
    Except PathError Seg :=
  if h : index < p.segments.length then .ok (p.segments.get ⟨index, h⟩)
  else .error .outOfRange

/-- A plain (kept, non-relative) segment: non-empty, neither `.` nor `..`,
and containing no invalid character. -/
def plainSeg (t : Seg) : Prop :=
  t ≠ [] ∧ t ≠ dotSeg ∧ t ≠ ddSeg ∧ segInvalid t = false

instance plainSeg_decidable (t : Seg) : Decidable (plainSeg t) := by
  unfold plainSeg
  infer_instance

/-- The data-model invariants of a segment list (spec section 3): a leading
run of `..` segments — empty whenever the path is absolute — followed by
plain segments only. -/
def canonSegs (isAbs : Bool) (segs : List Seg) : Prop :=
  ∃ k rest, segs = List.replicate k ddSeg ++ rest ∧
    (∀ t ∈ rest, plainSeg t) ∧ (isAbs = true → k = 0)

/-- The data-model invariants of a path value. -/
def pathInv (p : ComponentPath) : Prop :=
  canonSegs p.isAbsolute p.segments

/-- The invariant of normalize's output stack (top at the head): plain
segments on top of a run of `..` segments, the run empty when absolute. -/
def stackInv (isAbs : Bool) (stack : List Seg) : Prop :=
  ∃ rest k, stack = rest ++ List.replicate k ddSeg ∧
    (∀ t ∈ rest, plainSeg t) ∧ (isAbs = true → k = 0)

/-- splitRuns always produces at least one chunk. -/
theorem splitRuns_ne_nil (cs : List Char) : splitRuns cs ≠ [] := by
  induction cs with
  | nil => simp [splitRuns]
  | cons c cs ih =>
    simp only [splitRuns]
    rcases h : splitRuns cs with _ | ⟨t, ts⟩
    · simp
    · split_ifs <;> simp

/-- A leading separator opens a fresh empty chunk. -/
theorem splitRuns_sep_cons (cs : List Char) :
    splitRuns (separator :: cs) = [] :: splitRuns cs := by
  simp only [splitRuns]
  rcases h : splitRuns cs with _ | ⟨t, ts⟩
  · exact absurd h (splitRuns_ne_nil cs)
  · simp

/-- A leading non-separator character is prepended to the first chunk. -/
theorem splitRuns_cons_of_ne {c : Char} (hc : c ≠ separator) (cs : List Char) :
    ∃ t ts, splitRuns cs = t :: ts ∧ splitRuns (c :: cs) = (c :: t) :: ts := by
  rcases h : splitRuns cs with _ | ⟨t, ts⟩
  · exact absurd h (splitRuns_ne_nil cs)
  · refine ⟨t, ts, rfl, ?_⟩
    simp only [splitRuns]
    rw [h]
    simp [hc]

/-- Every character of every chunk comes from the input and is not the
separator. -/
theorem splitRuns_chars :
    ∀ {cs : List Char} {t : Seg}, t ∈ splitRuns cs →
      ∀ c ∈ t, c ∈ cs ∧ c ≠ separator := by
  intro cs
  induction cs with
  | nil =>
    intro t ht c hc
    simp [splitRuns] at ht
    subst ht
    simp at hc
  | cons c0 cs ih =>
    intro t ht c hc
    by_cases hc0 : c0 = separator
    · subst hc0
      rw [splitRuns_sep_cons] at ht
      rcases List.mem_cons.mp ht with rfl | ht2
      · simp at hc
      · obtain ⟨h1, h2⟩ := ih ht2 c hc
        exact ⟨List.mem_cons_of_mem _ h1, h2⟩
    · obtain ⟨t1, ts, h1, h2⟩ := splitRuns_cons_of_ne hc0 cs
      rw [h2] at ht
      rcases List.mem_cons.mp ht with rfl | ht2
      · rcases List.mem_cons.mp hc with rfl | hc2
        · exact ⟨List.mem_cons_self _ _, hc0⟩
        · obtain ⟨hh1, hh2⟩ := ih (h1 ▸ List.mem_cons_self t1 ts) c hc2
          exact ⟨List.mem_cons_of_mem _ hh1, hh2⟩
      · obtain ⟨hh1, hh2⟩ := ih (h1 ▸ List.mem_cons_of_mem t1 ht2) c hc
        exact ⟨List.mem_cons_of_mem _ hh1, hh2⟩

/-- Chunks of a separator-free string: the string is its own single chunk. -/
theorem splitRuns_sepFree {t : List Char} (ht : separator ∉ t) :
    splitRuns t = [t] := by
  induction t with
  | nil => rfl
  | cons c t ih =>
    have hc : c ≠ separator := fun h => ht (by simp [h])
    have ht2 : separator ∉ t := fun h => ht (List.mem_cons_of_mem _ h)
    obtain ⟨t1, ts, h1, h2⟩ := splitRuns_cons_of_ne hc t
    rw [ih ht2] at h1
    obtain ⟨rfl, rfl⟩ : t1 = t ∧ ts = [] := by
      constructor <;> [exact (List.cons.injEq _ _ _ _ ▸ h1).1.symm;
        exact (List.cons.injEq _ _ _ _ ▸ h1).2.symm]
    exact h2

/-- Chunks of a string extended by a separator and a tail. -/
theorem splitRuns_append_sep {t : List Char} (ht : separator ∉ t) (cs : List Char) :
    splitRuns (t ++ separator :: cs) = t :: splitRuns cs := by
  induction t with
  | nil => simpa using splitRuns_sep_cons cs
  | cons c t ih =>
    have hc : c ≠ separator := fun h => ht (by simp [h])
    have ht2 : separator ∉ t := fun h => ht (List.mem_cons_of_mem _ h)
    obtain ⟨t1, ts, h1, h2⟩ := splitRuns_cons_of_ne hc (t ++ separator :: cs)
    rw [ih ht2] at h1
    obtain ⟨rfl, rfl⟩ : t1 = t ∧ ts = splitRuns cs := by
      constructor <;> [exact (List.cons.injEq _ _ _ _ ▸ h1).1.symm;
        exact (List.cons.injEq _ _ _ _ ▸ h1).2.symm]
    simpa using h2

/-- Tokens survive the empty-chunk filter, so each is non-empty. -/
theorem tokenize_ne_nil {cs : List Char} {t : Seg} (ht : t ∈ tokenize cs) :
    t ≠ [] := by
  have h := List.of_mem_filter ht
  simpa using h

/-- Every character of every token comes from the input and is not the
separator. -/
theorem tokenize_chars {cs : List Char} {t : Seg} (ht : t ∈ tokenize cs) :
    ∀ c ∈ t, c ∈ cs ∧ c ≠ separator :=
  splitRuns_chars (List.mem_of_mem_filter ht)

/-- A leading separator does not change the token sequence. -/
theorem tokenize_sep_cons (cs : List Char) :
    tokenize (separator :: cs) = tokenize cs := by
  simp [tokenize, splitRuns_sep_cons]

/-- Tokens of a non-empty separator-free string. -/
theorem tokenize_sepFree {t : List Char} (ht : separator ∉ t) (htne : t ≠ []) :
    tokenize t = [t] := by
  simp [tokenize, splitRuns_sepFree ht, htne]

/-- Tokens of a separator-free string extended by a separator and a tail. -/
theorem tokenize_append_sep {t : List Char} (ht : separator ∉ t) (htne : t ≠ [])
    (cs : List Char) : tokenize (t ++ separator :: cs) = t :: tokenize cs := by
  simp [tokenize, splitRuns_append_sep ht, htne]

/-- Tokenizing the joined form of non-empty separator-free segments
recovers the segments. -/
theorem tokenize_join :
    ∀ {segs : List Seg}, (∀ s ∈ segs, s ≠ [] ∧ separator ∉ s) →
      tokenize (joinSegs segs) = segs := by
  intro segs
  induction segs with
  | nil => intro h; rfl
  | cons s rest ih =>
    intro h
    obtain ⟨hs1, hs2⟩ := h s (List.mem_cons_self _ _)
    cases rest with
    | nil => simpa [joinSegs] using tokenize_sepFree hs2 hs1
    | cons t rest2 =>
      have hjoin : joinSegs (s :: t :: rest2) = s ++ separator :: joinSegs (t :: rest2) := rfl
      rw [hjoin, tokenize_append_sep hs2 hs1, ih (fun x hx => h x (List.mem_cons_of_mem _ hx))]

/-- The scan discards a current-directory token. -/
theorem scanStep_dot (isAbs : Bool) (stack : List Seg) :
    scanStep isAbs stack dotSeg = .ok stack := by
  simp [scanStep]

/-- The scan pushes a plain token. -/
theorem scanStep_plain {tok : Seg} (h : plainSeg tok) (isAbs : Bool)
    (stack : List Seg) : scanStep isAbs stack tok = .ok (tok :: stack) := by
  obtain ⟨h1, h2, h3, h4⟩ := h
  simp [scanStep, h2, h3, h4]

/-- On a relative path, a `..` token lands on a stack of `..` tokens by
growing the run. -/
theorem scanStep_dd_run (m : Nat) :
    scanStep false (List.replicate m ddSeg) ddSeg
      = .ok (List.replicate (m + 1) ddSeg) := by
  have hne : ¬ ddSeg = dotSeg := by decide
  cases m with
  | zero => simp [scanStep, hne]
  | succ m => simp [scanStep, hne, List.replicate_succ]

/-- One scan step preserves the stack invariant. -/
theorem scanStep_inv {isAbs : Bool} {stack stack2 : List Seg} {tok : Seg}
    (hinv : stackInv isAbs stack) (htok : tok ≠ [])
    (h : scanStep isAbs stack tok = .ok stack2) : stackInv isAbs stack2 := by
  obtain ⟨rest, k, heq, hplain, habs⟩ := hinv
  by_cases h1 : tok = dotSeg
  · rw [h1, scanStep_dot] at h
    obtain rfl : stack = stack2 := by injection h
    exact ⟨rest, k, heq, hplain, habs⟩
  · by_cases h2 : tok = ddSeg
    · subst h2
      cases stack with
      | nil =>
        simp only [scanStep, if_neg h1, if_pos rfl] at h
        cases isAbs with
        | true => simp at h
        | false =>
          rw [if_neg (by decide : ¬ (false = true))] at h
          obtain rfl : [ddSeg] = stack2 := by injection h
          exact ⟨[], 1, by simp, by simp, fun hh => absurd hh (by decide)⟩
      | cons top stack3 =>
        by_cases htop : top = ddSeg
        · subst htop
          have hrest : rest = [] := by
            cases rest with
            | nil => rfl
            | cons r0 r2 =>
              have hr0 : r0 = ddSeg := by
                have h5 := heq
                simp only [List.cons_append] at h5
                exact ((List.cons.injEq _ _ _ _ ▸ h5).1).symm
              exact absurd hr0 (hplain r0 (List.mem_cons_self _ _)).2.2.1
          subst hrest
          simp only [List.nil_append] at heq
          simp only [scanStep, if_neg h1, if_pos rfl, if_pos rfl] at h
          cases isAbs with
          | true => simp at h
          | false =>
            rw [if_neg (by decide : ¬ (false = true))] at h
            obtain rfl : ddSeg :: ddSeg :: stack3 = stack2 := by injection h
            refine ⟨[], k + 1, ?_, by simp, fun hh => absurd hh (by decide)⟩
            rw [List.replicate_succ, List.nil_append]
            rw [← heq]
        · simp only [scanStep, if_neg h1, if_pos rfl, if_neg htop] at h
          obtain rfl : stack3 = stack2 := by injection h
          cases rest with
          | nil =>
            exfalso
            simp only [List.nil_append] at heq
            cases k with
            | zero => simp at heq
            | succ k =>
              rw [List.replicate_succ] at heq
              exact htop ((List.cons.injEq _ _ _ _ ▸ heq).1)
          | cons r0 r2 =>
            simp only [List.cons_append] at heq
            exact ⟨r2, k, (List.cons.injEq _ _ _ _ ▸ heq).2,
              fun t ht => hplain t (List.mem_cons_of_mem _ ht), habs⟩
    · by_cases h3 : segInvalid tok = true
      · simp [scanStep, h1, h2, h3] at h
      · simp only [scanStep, if_neg h1, if_neg h2, if_neg h3] at h
        obtain rfl : tok :: stack = stack2 := by injection h
        refine ⟨tok :: rest, k, by rw [heq, List.cons_append], ?_, habs⟩
        intro t ht
        rcases List.mem_cons.mp ht with rfl | ht2
        · exact ⟨htok, h1, h2, Bool.not_eq_true _ ▸ h3⟩
        · exact hplain t ht2

/-- A successful scan from an invariant-respecting stack yields canonical
output segments. -/
theorem scanTokens_inv {isAbs : Bool} :
    ∀ {toks : List Seg} {stack out : List Seg}, stackInv isAbs stack →
      (∀ t ∈ toks, t ≠ []) → scanTokens isAbs stack toks = .ok out →
      canonSegs isAbs out := by
  intro toks
  induction toks with
  | nil =>
    intro stack out hinv htoks h
    simp only [scanTokens] at h
    obtain ⟨rest, k, heq, hplain, habs⟩ := hinv
    obtain rfl : stack.reverse = out := by injection h
    refine ⟨k, rest.reverse, ?_, ?_, habs⟩
    · rw [heq, List.reverse_append, List.reverse_replicate]
    · intro t ht
      exact hplain t (List.mem_reverse.mp ht)
  | cons tok rest ih =>
    intro stack out hinv htoks h
    simp only [scanTokens] at h
    rcases e : scanStep isAbs stack tok with e1 | s2
    · rw [e] at h; cases h
    · rw [e] at h
      exact ih (scanStep_inv hinv (htoks tok (List.mem_cons_self _ _)) e)
        (fun t ht => htoks t (List.mem_cons_of_mem _ ht)) h

/-- Scanning plain tokens appends them to the output unchanged. -/
theorem scanTokens_plain {isAbs : Bool} :
    ∀ {toks : List Seg}, (∀ t ∈ toks, plainSeg t) →
      ∀ stack, scanTokens isAbs stack toks = .ok (stack.reverse ++ toks) := by
  intro toks
  induction toks with
  | nil => intro h stack; simp [scanTokens]
  | cons tok rest ih =>
    intro h stack
    simp only [scanTokens]
    rw [scanStep_plain (h tok (List.mem_cons_self _ _))]
    have h2 := ih (fun t ht => h t (List.mem_cons_of_mem _ ht)) (tok :: stack)
    simpa using h2

/-- On a relative path, scanning a `..` run followed by plain tokens from a
stack that is itself a `..` run merges the runs and appends the tokens. -/
theorem scanTokens_dds {rest : List Seg} (hrest : ∀ t ∈ rest, plainSeg t) :
    ∀ k m, scanTokens false (List.replicate m ddSeg)
      (List.replicate k ddSeg ++ rest)
      = .ok (List.replicate (m + k) ddSeg ++ rest) := by
  intro k
  induction k with
  | zero =>
    intro m
    simpa [List.reverse_replicate] using scanTokens_plain hrest (List.replicate m ddSeg)
  | succ k ih =>
    intro m
    simp only [List.replicate_succ, List.cons_append, scanTokens]
    rw [scanStep_dd_run]
    have h2 := ih (m + 1)
    have harith : m + 1 + k = m + (k + 1) := by omega
    rw [harith] at h2
    simpa using h2

/-- The scan is the identity on canonical segment lists. -/
theorem scanTokens_canonId {isAbs : Bool} {segs : List Seg}
    (h : canonSegs isAbs segs) : scanTokens isAbs [] segs = .ok segs := by
  obtain ⟨k, rest, heq, hplain, habs⟩ := h
  cases isAbs with
  | true =>
    rw [habs rfl] at heq
    simp only [List.replicate, List.nil_append] at heq
    subst heq
    simpa using scanTokens_plain hplain []
  | false =>
    rw [heq]
    simpa using scanTokens_dds hplain k 0

/-- On a relative path, a scan step on a token without invalid characters
never fails. -/
theorem scanStep_rel_ok {tok : Seg} (h : segInvalid tok = false)
    (stack : List Seg) : ∃ s2, scanStep false stack tok = .ok s2 := by
  by_cases h1 : tok = dotSeg
  · exact ⟨stack, by rw [h1, scanStep_dot]⟩
  · by_cases h2 : tok = ddSeg
    · subst h2
      cases stack with
      | nil => exact ⟨[ddSeg], by simp [scanStep, h1]⟩
      | cons top stack3 =>
        by_cases htop : top = ddSeg
        · exact ⟨ddSeg :: top :: stack3, by simp [scanStep, h1, htop]⟩
        · exact ⟨stack3, by simp [scanStep, h1, htop]⟩
    · exact ⟨tok :: stack, by simp [scanStep, h1, h2, h]⟩

/-- On a relative path, the scan succeeds whenever no token carries an
invalid character. -/
theorem scanTokens_rel_ok :
    ∀ {toks : List Seg}, (∀ t ∈ toks, segInvalid t = false) →
      ∀ stack, ∃ out, scanTokens false stack toks = .ok out := by
  intro toks
  induction toks with
  | nil => intro h stack; exact ⟨stack.reverse, rfl⟩
  | cons tok rest ih =>
    intro h stack
    obtain ⟨s2, hs2⟩ := scanStep_rel_ok (h tok (List.mem_cons_self _ _)) stack
    obtain ⟨out, hout⟩ := ih (fun t ht => h t (List.mem_cons_of_mem _ ht)) s2
    refine ⟨out, ?_⟩
    simp only [scanTokens]
    rw [hs2]
    exact hout

/-- A plain segment does not contain the separator. -/
theorem plainSeg_sep_free {t : Seg} (h : plainSeg t) : separator ∉ t := by
  intro hmem
  have h4 := h.2.2.2
  simp only [segInvalid] at h4
  have h5 : ∀ x ∈ t, x ∉ invalidChars := by simpa using h4
  exact h5 separator hmem (by decide)

/-- Canonical segments are non-empty and separator-free. -/
theorem canonSegs_sep_free {isAbs : Bool} {segs : List Seg}
    (h : canonSegs isAbs segs) : ∀ t ∈ segs, t ≠ [] ∧ separator ∉ t := by
  obtain ⟨k, rest, heq, hplain, -⟩ := h
  intro t ht
  rw [heq] at ht
  rcases List.mem_append.mp ht with h1 | h2
  · have : t = ddSeg := List.eq_of_mem_replicate h1
    subst this
    exact ⟨by decide, by decide⟩
  · have hp := hplain t h2
    exact ⟨hp.1, plainSeg_sep_free hp⟩

/-- The head of a joined segment list is the head of its first segment. -/
theorem joinSegs_head {s : Seg} (hs : s ≠ []) (rest : List Seg) :
    (joinSegs (s :: rest)).head? = s.head? := by
  cases rest with
  | nil => rfl
  | cons t rest2 =>
    obtain ⟨c, s2, rfl⟩ := List.exists_cons_of_ne_nil hs
    rfl

/-- A string is recognized as absolute exactly when its first character is
the separator. -/
theorem isAbsoluteStr_iff {cs : List Char} :
    isAbsoluteStr cs = true ↔ cs.head? = some separator := by
  cases cs with
  | nil => simp [isAbsoluteStr]
  | cons c cs2 => simp [isAbsoluteStr]

/-- Rendering canonical segments yields a string whose absolute flag reads
back correctly. -/
theorem isAbsoluteStr_render {isAbs : Bool} {segs : List Seg}
    (h : canonSegs isAbs segs) : isAbsoluteStr (render isAbs segs) = isAbs := by
  cases isAbs with
  | true => simp [render, isAbsoluteStr]
  | false =>
    simp only [render, if_neg (by decide : ¬ (false = true))]
    cases segs with
    | nil => rfl
    | cons s rest =>
      obtain ⟨hne, hsep⟩ := canonSegs_sep_free h s (List.mem_cons_self _ _)
      rw [← Bool.not_eq_true, isAbsoluteStr_iff, joinSegs_head hne]
      obtain ⟨c, s2, rfl⟩ := List.exists_cons_of_ne_nil hne
      have hc : c ≠ separator := fun hcc => hsep (by simp [hcc])
      simp [hc]

/-- Rendering canonical segments and tokenizing recovers the segments. -/
theorem tokenize_render {isAbs : Bool} {segs : List Seg}
    (h : canonSegs isAbs segs) : tokenize (render isAbs segs) = segs := by
  have hfree := canonSegs_sep_free h
  cases isAbs with
  | true =>
    have hr : render true segs = separator :: joinSegs segs := by simp [render]
    rw [hr, tokenize_sep_cons, tokenize_join hfree]
  | false =>
    simp only [render, if_neg (by decide : ¬ (false = true))]
    exact tokenize_join hfree

/-- normalize leaves the rendering of canonical segments unchanged. -/
theorem normalizeChars_render {isAbs : Bool} {segs : List Seg}
    (h : canonSegs isAbs segs) :
    normalizeChars (render isAbs segs) = .ok (render isAbs segs) := by
  unfold normalizeChars
  rw [isAbsoluteStr_render h, tokenize_render h, scanTokens_canonId h]

/-- A successful normalize is the rendering of some canonical segments. -/
theorem normalizeChars_ok_canon {cs r : List Char}
    (h : normalizeChars cs = .ok r) :
    ∃ segs, canonSegs (isAbsoluteStr cs) segs ∧ r = render (isAbsoluteStr cs) segs := by
  unfold normalizeChars at h
  rcases e : scanTokens (isAbsoluteStr cs) [] (tokenize cs) with e1 | segs
  · rw [e] at h; cases h
  · rw [e] at h
    obtain rfl : render (isAbsoluteStr cs) segs = r := by injection h
    have hcanon : canonSegs (isAbsoluteStr cs) segs :=
      scanTokens_inv ⟨[], 0, by simp, by simp, fun _ => rfl⟩
        (fun t ht => tokenize_ne_nil ht) e
    exact ⟨segs, hcanon, rfl⟩

/-- normalize is idempotent at the character level. -/
theorem normalizeChars_idem {cs r : List Char}
    (h : normalizeChars cs = .ok r) : normalizeChars r = .ok r := by
  obtain ⟨segs, hcanon, rfl⟩ := normalizeChars_ok_canon h
  exact normalizeChars_render hcanon

/-- Defining equation of stripCommon on two cons cells. -/
theorem stripCommon_cons (x y : Seg) (xs ys : List Seg) :
    stripCommon (x :: xs) (y :: ys)
      = if x = y then stripCommon xs ys else (x :: xs, y :: ys) := rfl

/-- Defining equation of commonLen on two cons cells. -/
theorem commonLen_cons (x y : Seg) (xs ys : List Seg) :
    commonLen (x :: xs) (y :: ys)
      = if x = y then commonLen xs ys + 1 else 0 := rfl

/-- stripCommon drops the longest common leading run from both lists. -/
theorem stripCommon_eq_drop :
    ∀ xs ys : List Seg, stripCommon xs ys
      = (xs.drop (commonLen xs ys), ys.drop (commonLen xs ys)) := by
  intro xs
  induction xs with
  | nil => intro ys; cases ys <;> rfl
  | cons x xs ih =>
    intro ys
    cases ys with
    | nil => rfl
    | cons y ys =>
      by_cases hxy : x = y
      · rw [stripCommon_cons, commonLen_cons, if_pos hxy, if_pos hxy, ih ys]
        rfl
      · rw [stripCommon_cons, commonLen_cons, if_neg hxy, if_neg hxy]
        rfl

/-- The common leading run really is common: both takes agree. -/
theorem commonLen_take :
    ∀ xs ys : List Seg, xs.take (commonLen xs ys) = ys.take (commonLen xs ys) := by
  intro xs
  induction xs with
  | nil => intro ys; rfl
  | cons x xs ih =>
    intro ys
    cases ys with
    | nil => rfl
    | cons y ys =>
      by_cases hxy : x = y
      · rw [commonLen_cons, if_pos hxy, List.take_succ_cons, List.take_succ_cons, hxy, ih ys]
      · rw [commonLen_cons, if_neg hxy]
        rfl

/-- The common leading run is the longest one. -/
theorem commonLen_max :
    ∀ (xs ys : List Seg) (j : Nat), j ≤ xs.length →
      xs.take j = ys.take j → j ≤ commonLen xs ys := by
  intro xs
  induction xs with
  | nil =>
    intro ys j hj _
    have hj0 : j = 0 := by simpa using hj
    exact hj0 ▸ Nat.zero_le _
  | cons x xs ih =>
    intro ys j hj htake
    cases j with
    | zero => exact Nat.zero_le _
    | succ j =>
      cases ys with
      | nil => simp at htake
      | cons y ys =>
        simp only [List.take_succ_cons] at htake
        have hxy : x = y := (List.cons.injEq _ _ _ _ ▸ htake).1
        have htake2 : xs.take j = ys.take j := (List.cons.injEq _ _ _ _ ▸ htake).2
        rw [commonLen_cons, if_pos hxy]
        have hrec := ih ys j (by simpa using hj) htake2
        omega

/-- The common leading run of a list with itself is everything. -/
theorem commonLen_self : ∀ l : List Seg, commonLen l l = l.length := by
  intro l
  induction l with
  | nil => rfl
  | cons x xs ih => rw [commonLen_cons, if_pos rfl, ih]; rfl

/-- Stripping a list from its own extension leaves the extension. -/
theorem stripCommon_append :
    ∀ l r : List Seg, stripCommon (l ++ r) l = (r, []) := by
  intro l
  induction l with
  | nil => intro r; cases r <;> rfl
  | cons x l ih =>
    intro r
    rw [List.cons_append, stripCommon_cons, if_pos rfl, ih r]

/-- Elements of a takeWhile satisfy the predicate. -/
theorem mem_takeWhile_pred {p : Char → Bool} :
    ∀ {l : List Char} {a : Char}, a ∈ l.takeWhile p → p a = true := by
  intro l
  induction l with
  | nil => intro a h; simp [List.takeWhile_nil] at h
  | cons c l ih =>
    intro a h
    rw [List.takeWhile_cons] at h
    cases hc : p c with
    | true =>
      rw [hc] at h
      simp only [if_pos rfl] at h
      rcases List.mem_cons.mp h with rfl | h2
      · exact hc
      · exact ih h2
    | false =>
      rw [hc] at h
      simp at h

/-- The first element surviving a dropWhile falsifies the predicate. -/
theorem dropWhile_head_false {p : Char → Bool} :
    ∀ {l : List Char} {a : Char} {l2 : List Char},
      l.dropWhile p = a :: l2 → p a = false := by
  intro l
  induction l with
  | nil => intro a l2 h; simp [List.dropWhile_nil] at h
  | cons c l ih =>
    intro a l2 h
    rw [List.dropWhile_cons] at h
    cases hc : p c with
    | true =>
      rw [hc] at h
      simp only [if_pos rfl] at h
      exact ih h
    | false =>
      rw [hc] at h
      rw [if_neg (by decide : ¬ (false = true))] at h
      have hca : c = a := (List.cons.injEq _ _ _ _ ▸ h).1
      rw [← hca]
      exact hc

/-- Claim C1: during normalize's scan, a `..` with no real segment to pop
is resolved by the absolute flag — on a relative path the `..` is pushed
and survives as part of a leading `..` run, so every relative input whose
characters are valid normalizes successfully, and in particular
normalize "../a/b" returns "../a/b"; on an absolute path such a `..` is an
out-of-root error. -/
theorem normalize_relative_ok :
    (∀ s : String, isAbsoluteStr s.data = false →
      (∀ c ∈ s.data, c ∈ invalidChars → c = separator) →
      ∃ r, normalize s = .ok r)
    ∧ normalize "../a/b" = .ok "../a/b"
    ∧ normalize "/.." = .error .outOfRoot := by
  refine ⟨?_, rfl, rfl⟩
  intro s habs hchars
  have htoks : ∀ t ∈ tokenize s.data, segInvalid t = false := by
    intro t ht
    by_contra hcon
    rw [Bool.not_eq_false] at hcon
    simp only [segInvalid, List.any_eq_true, decide_eq_true_eq] at hcon
    obtain ⟨c, hct, hcinv⟩ := hcon
    obtain ⟨hcs, hcne⟩ := tokenize_chars ht c hct
    exact hcne (hchars c hcs hcinv)
  obtain ⟨out, hout⟩ := scanTokens_rel_ok htoks []
  refine ⟨String.mk (render false out), ?_⟩
  unfold normalize normalizeChars
  rw [habs, hout]

/-- Witness for claim C1: a concrete relative input with a leading `..`
normalizes successfully. -/
theorem normalize_relative_ok_witness : ∃ r, normalize "../x" = .ok r :=
  normalize_relative_ok.1 "../x" (by decide) (by decide)

/-- Claim C2: normalize is idempotent — whenever normalize succeeds on s
with result r, normalizing r returns r unchanged. -/
theorem normalize_idempotent (s r : String) (h : normalize s = .ok r) :
    normalize r = .ok r := by
  unfold normalize at h
  rcases e : normalizeChars s.data with e1 | cs
  · rw [e] at h; cases h
  · rw [e] at h
    obtain rfl : String.mk cs = r := by injection h
    unfold normalize
    rw [show (String.mk cs).data = cs from rfl, normalizeChars_idem e]

/-- Witness for claim C2 at the spec's concrete example
normalize "a///b/./c/../d/" = "a/b/d". -/
theorem normalize_idempotent_witness : normalize "a/b/d" = .ok "a/b/d" :=
  normalize_idempotent "a///b/./c/../d/" "a/b/d" rfl

/-- Claim C3: normalize fails fast with the first violation of its
left-to-right scan — "/../a/b" reports out-of-root and "a/*b" reports an
invalid character; when both kinds of violation are present the one met
first is reported, and no partial result is ever produced (the result type
is either a single error or a full string). -/
theorem normalize_fail_fast :
    normalize "/../a/b" = .error .outOfRoot
    ∧ normalize "a/*b" = .error .invalidCharacter
    ∧ normalize "/../*a" = .error .outOfRoot
    ∧ normalize "/*a/../../b" = .error .invalidCharacter :=
  ⟨rfl, rfl, rfl, rfl⟩

/-- Counterexample to claim C4: the (segments, isAbsolute) constructor
stores its arguments without validation, so the path built from the single
segment "." violates the invariant that no segment equals ".". -/
theorem constructed_invariants_cex :
    ¬ pathInv (ComponentPath.fromVec [dotSeg] false) := by
  rintro ⟨k, rest, heq, hplain, -⟩
  cases k with
  | zero =>
    simp only [List.replicate, List.nil_append] at heq
    exact (hplain dotSeg (heq ▸ List.mem_cons_self _ _)).2.1 rfl
  | succ k =>
    rw [List.replicate_succ, List.cons_append] at heq
    exact absurd (List.cons.injEq _ _ _ _ ▸ heq).1 (by decide)

/-- Claim C4 (amended): every path constructed by parsing a string
satisfies the data-model invariants (no empty or "." segment, no invalid
character, `..` only as a leading run and only on relative paths); a path
constructed from (segments, isAbsolute) is stored as given, hence
satisfies the invariants exactly when the supplied segment list already
does. -/
theorem constructed_invariants :
    (∀ (s : String) (p : ComponentPath),
      ComponentPath.fromString s = .ok p → pathInv p)
    ∧ ∀ (segs : List Seg) (isAbs : Bool), canonSegs isAbs segs →
        pathInv (ComponentPath.fromVec segs isAbs) := by
  constructor
  · intro s p h
    unfold ComponentPath.fromString at h
    rcases e : normalizeChars s.data with e1 | cs
    · rw [e] at h; cases h
    · rw [e] at h
      obtain rfl : (⟨tokenize cs, isAbsoluteStr cs⟩ : ComponentPath) = p := by injection h
      show canonSegs (isAbsoluteStr cs) (tokenize cs)
      obtain ⟨segs, hcanon, hcs⟩ := normalizeChars_ok_canon e
      rw [hcs, isAbsoluteStr_render hcanon, tokenize_render hcanon]
      exact hcanon
  · intro segs isAbs h
    exact h

/-- Witness for claim C4: the path parsed from "/a/b" satisfies the
invariants. -/
theorem constructed_invariants_witness :
    pathInv (ComponentPath.mk [['a'], ['b']] true) :=
  constructed_invariants.1 "/a/b" (ComponentPath.mk [['a'], ['b']] true) rfl

/-- Claim C5: formRelativePath on two absolute paths with longest common
leading run of length k returns the relative path made of (n - k) copies
of `..` — n being the other path's segment count — followed by this path's
segments beyond k; on equal paths the result is the empty relative path,
and it is a misuse error unless both paths are absolute.  The last two
conjuncts identify commonLen as the length of the longest common leading
run. -/
theorem formRelativePath_spec (a b : ComponentPath) :
    (a.isAbsolute = true → b.isAbsolute = true →
      ComponentPath.formRelativePath a b
        = .ok ⟨List.replicate (b.segments.length - commonLen a.segments b.segments) ddSeg
            ++ a.segments.drop (commonLen a.segments b.segments), false⟩)
    ∧ (¬ (a.isAbsolute = true ∧ b.isAbsolute = true) →
      ComponentPath.formRelativePath a b = .error .misuse)
    ∧ (a.isAbsolute = true → ComponentPath.formRelativePath a a = .ok ⟨[], false⟩)
    ∧ a.segments.take (commonLen a.segments b.segments)
        = b.segments.take (commonLen a.segments b.segments)
    ∧ ∀ j, j ≤ a.segments.length → a.segments.take j = b.segments.take j →
        j ≤ commonLen a.segments b.segments := by
  refine ⟨?_, ?_, ?_, commonLen_take _ _, commonLen_max _ _⟩
  · intro ha hb
    unfold ComponentPath.formRelativePath
    rw [if_pos (by rw [ha, hb]; rfl), stripCommon_eq_drop]
    simp [List.length_drop]
  · intro hn
    unfold ComponentPath.formRelativePath
    rw [if_neg (fun hc => hn (by simpa [Bool.and_eq_true] using hc))]
  · intro ha
    unfold ComponentPath.formRelativePath
    rw [if_pos (by rw [ha]; rfl), stripCommon_eq_drop, commonLen_self]
    simp [List.drop_length]

/-- Witness for claim C5 at the spec's concrete example: the relative path
from "/a/x/y" to "/a/b/c" is "../../b/c". -/
theorem formRelativePath_spec_witness :
    ComponentPath.formRelativePath ⟨[['a'], ['b'], ['c']], true⟩ ⟨[['a'], ['x'], ['y']], true⟩
      = .ok ⟨[ddSeg, ddSeg, ['b'], ['c']], false⟩ :=
  (formRelativePath_spec ⟨[['a'], ['b'], ['c']], true⟩ ⟨[['a'], ['x'], ['y']], true⟩).1 rfl rfl

/-- Counterexample to claim C6: for the relative path "../a" and the
absolute base "/a", formAbsolutePath succeeds (no out-of-root error) with
"/a", but resolving "/a" back relative to the base "/a" gives the empty
relative path, which differs from "../a" — the round trip fails. -/
theorem roundtrip_cex :
    ComponentPath.formAbsolutePath ⟨[ddSeg, ['a']], false⟩ ⟨[['a']], true⟩
        = .ok ⟨[['a']], true⟩
    ∧ ComponentPath.formRelativePath ⟨[['a']], true⟩ ⟨[['a']], true⟩ = .ok ⟨[], false⟩
    ∧ ComponentPath.eq ⟨[], false⟩ ⟨[ddSeg, ['a']], false⟩ = false :=
  ⟨rfl, rfl, rfl⟩

/-- Claim C6 (amended): the round trip
p.formAbsolutePath(base).formRelativePath(base) == p holds for every
relative p and absolute base satisfying the data-model invariants,
provided p contains no `..` segment (with a leading `..` the absolute form
can collapse a detour, as the counterexample shows); no out-of-root error
can then occur. -/
theorem roundtrip_correct (p base : ComponentPath)
    (hrel : p.isAbsolute = false) (habs : base.isAbsolute = true)
    (hp : pathInv p) (hbase : pathInv base) (hdd : ddSeg ∉ p.segments) :
    ComponentPath.formAbsolutePath p base = .ok ⟨base.segments ++ p.segments, true⟩
    ∧ ComponentPath.formRelativePath ⟨base.segments ++ p.segments, true⟩ base
        = .ok p := by
  have hpplain : ∀ t ∈ p.segments, plainSeg t := by
    obtain ⟨k, rest, heq, hplainr, -⟩ := hp
    cases k with
    | zero =>
      intro t ht
      apply hplainr
      simp only [List.replicate, List.nil_append] at heq
      exact heq ▸ ht
    | succ k =>
      exfalso
      apply hdd
      rw [heq, List.replicate_succ]
      simp
  have hbplain : ∀ t ∈ base.segments, plainSeg t := by
    obtain ⟨k, rest, heq, hplainr, hk⟩ := hbase
    rw [hk habs] at heq
    simp only [List.replicate, List.nil_append] at heq
    intro t ht
    exact hplainr t (heq ▸ ht)
  have hall : ∀ t ∈ base.segments ++ p.segments, plainSeg t := by
    intro t ht
    rcases List.mem_append.mp ht with h | h
    exacts [hbplain t h, hpplain t h]
  constructor
  · unfold ComponentPath.formAbsolutePath
    rw [hrel, if_neg (by decide : ¬ (false = true)), habs,
      if_neg (by decide : ¬ ((!true) = true))]
    have hscan := @scanTokens_plain true (base.segments ++ p.segments) hall []
    simp only [List.reverse_nil, List.nil_append] at hscan
    rw [hscan]
  · unfold ComponentPath.formRelativePath
    rw [if_pos (by rw [habs]; rfl)]
    show Except.ok
        ⟨List.replicate (stripCommon (base.segments ++ p.segments) base.segments).2.length ddSeg
          ++ (stripCommon (base.segments ++ p.segments) base.segments).1, false⟩
      = Except.ok p
    rw [stripCommon_append]
    obtain ⟨segs, flag⟩ := p
    rw [show (⟨segs, flag⟩ : ComponentPath).isAbsolute = flag from rfl] at hrel
    subst hrel
    rfl

/-- Witness for claim C6: the round trip at the relative path "c" and the
absolute base "/a". -/
theorem roundtrip_correct_witness :
    ComponentPath.formAbsolutePath ⟨[['c']], false⟩ ⟨[['a']], true⟩
        = .ok ⟨[['a'], ['c']], true⟩
    ∧ ComponentPath.formRelativePath ⟨[['a'], ['c']], true⟩ ⟨[['a']], true⟩
        = .ok ⟨[['c']], false⟩ :=
  roundtrip_correct ⟨[['c']], false⟩ ⟨[['a']], true⟩ rfl rfl
    ⟨0, [['c']], rfl, by decide, fun h => rfl⟩
    ⟨0, [['a']], rfl, by decide, fun h => rfl⟩ (by decide)

/-- Claim C7: split is purely syntactic — on an input without a separator
(the empty string included) the head is empty and the tail is the whole
input; otherwise the tail is the separator-free substring after the last
separator and the head is the part up to that separator with trailing
separators stripped, a head reduced to nothing becoming the single root
separator; in particular split "a/b/c/" = ("a/b/c", "") and
split "abc" = ("", "abc"). -/
theorem split_spec :
    (∀ s : String,
      (separator ∉ s.data → split s = ("", s))
      ∧ (separator ∈ s.data →
          separator ∉ (split s).2.data
          ∧ ∃ h0 : List Char, s.data = h0 ++ separator :: (split s).2.data
            ∧ (split s).1.data
              = (if (stripTrailingSeps (h0 ++ [separator])).isEmpty then [separator]
                 else stripTrailingSeps (h0 ++ [separator]))))
    ∧ split "" = ("", "") ∧ split "a/b/c/" = ("a/b/c", "")
    ∧ split "abc" = ("", "abc") ∧ split "/a" = ("/", "a") := by
  refine ⟨?_, rfl, rfl, rfl, rfl⟩
  intro s
  constructor
  · intro hno
    unfold split splitChars
    rw [if_neg hno]
  · intro hyes
    have hyes2 : separator ∈ s.data.reverse := List.mem_reverse.mpr hyes
    rcases e : s.data.reverse.dropWhile (fun c => c != separator) with _ | ⟨a, d2⟩
    · exfalso
      have h1 := List.takeWhile_append_dropWhile
        (p := fun c => c != separator) (l := s.data.reverse)
      rw [e, List.append_nil] at h1
      have h2 := mem_takeWhile_pred (p := fun c => c != separator) (h1 ▸ hyes2)
      simp at h2
    · have ha : a = separator := by
        have h2 := dropWhile_head_false e
        simpa using h2
      subst ha
      have htail : (split s).2.data
          = (s.data.reverse.takeWhile (fun c => c != separator)).reverse := by
        unfold split splitChars
        rw [if_pos hyes]
      have hhead : (split s).1.data
          = (if (stripTrailingSeps
                ((s.data.reverse.dropWhile (fun c => c != separator)).reverse)).isEmpty
             then [separator]
             else stripTrailingSeps
                ((s.data.reverse.dropWhile (fun c => c != separator)).reverse)) := by
        unfold split splitChars
        rw [if_pos hyes]
      have hnotin : separator ∉ (split s).2.data := by
        rw [htail]
        intro hc
        have h3 := mem_takeWhile_pred (p := fun c => c != separator)
          (List.mem_reverse.mp hc)
        simp at h3
      have hdecomp : s.data = d2.reverse ++ separator :: (split s).2.data := by
        rw [htail]
        have h1 := List.takeWhile_append_dropWhile
          (p := fun c => c != separator) (l := s.data.reverse)
        rw [e] at h1
        calc s.data = s.data.reverse.reverse := by rw [List.reverse_reverse]
          _ = ((s.data.reverse.takeWhile fun c => c != separator)
                ++ separator :: d2).reverse := by rw [h1]
          _ = d2.reverse ++ separator
                :: (s.data.reverse.takeWhile fun c => c != separator).reverse := by
                rw [List.reverse_append]
                simp
      have hh0 : (s.data.reverse.dropWhile (fun c => c != separator)).reverse
          = d2.reverse ++ [separator] := by
        rw [e]
        simp
      refine ⟨hnotin, d2.reverse, hdecomp, ?_⟩
      rw [hhead, hh0]

/-- Witness for claim C7: a separator-free input is returned whole as the
tail. -/
theorem split_spec_witness : split "abc" = ("", "abc") :=
  (split_spec.1 "abc").1 (by decide)

/-- Claim C8: getParentPath drops the last segment and keeps the absolute
flag; on a root or empty path (no segments) it returns the path itself —
a silent no-op with no error (the operation is total), idempotent on the
root. -/
theorem getParentPath_spec (p : ComponentPath) :
    ComponentPath.getParentPath p = ⟨p.segments.dropLast, p.isAbsolute⟩
    ∧ (p.segments = [] → ComponentPath.getParentPath p = p)
    ∧ ComponentPath.getParentPath (ComponentPath.getParentPath p)
        = ⟨p.segments.dropLast.dropLast, p.isAbsolute⟩ := by
  refine ⟨rfl, ?_, rfl⟩
  intro h
  obtain ⟨segs, flag⟩ := p
  rw [show (⟨segs, flag⟩ : ComponentPath).segments = segs from rfl] at h
  subst h
  rfl

/-- Witness for claim C8: the parent of the root path is the root path. -/
theorem getParentPath_spec_witness :
    ComponentPath.getParentPath ⟨[], true⟩ = ⟨[], true⟩ :=
  (getParentPath_spec ⟨[], true⟩).2.1 rfl

/-- Claim C9: getSubcomponentNameAtLevel returns the segment at the 0-based
index whenever the index is below the segment count, and signals an
out-of-range error exactly when the index is at least the segment count. -/
theorem getSubcomponentNameAtLevel_spec (p : ComponentPath) (index : Nat) :
    (∀ h : index < p.segments.length,
      ComponentPath.getSubcomponentNameAtLevel p index
        = .ok (p.segments.get ⟨index, h⟩))
    ∧ (p.segments.length ≤ index →
      ComponentPath.getSubcomponentNameAtLevel p index = .error .outOfRange) := by
  constructor
  · intro h
    unfold ComponentPath.getSubcomponentNameAtLevel
    rw [dif_pos h]
  · intro h
    unfold ComponentPath.getSubcomponentNameAtLevel
    rw [dif_neg (by omega)]

/-- Witness for claim C9 on the two-segment path "/a/b": index 1 yields
"b" and index 5 is out of range. -/
theorem getSubcomponentNameAtLevel_spec_witness :
    ComponentPath.getSubcomponentNameAtLevel ⟨[['a'], ['b']], true⟩ 1 = .ok ['b']
    ∧ ComponentPath.getSubcomponentNameAtLevel ⟨[['a'], ['b']], true⟩ 5
        = .error .outOfRange :=
  ⟨(getSubcomponentNameAtLevel_spec ⟨[['a'], ['b']], true⟩ 1).1 (by decide),
   (getSubcomponentNameAtLevel_spec ⟨[['a'], ['b']], true⟩ 5).2 (by decide)⟩

/-- Claim C10: path equality is determined solely by the canonical string
form — operator== holds iff the two toString results coincide and
operator!= is exactly its negation; consequently a parsed path and a
vector-built path are equal whenever their canonical strings coincide,
regardless of construction. -/
theorem path_eq_toString :
    (∀ a b : ComponentPath,
      (ComponentPath.eq a b = true ↔ a.toString = b.toString)
      ∧ ComponentPath.ne a b = !ComponentPath.eq a b)
    ∧ ∀ (s : String) (segs : List Seg) (isAbs : Bool) (p : ComponentPath),
        ComponentPath.fromString s = .ok p →
        p.toString = (ComponentPath.fromVec segs isAbs).toString →
        ComponentPath.eq p (ComponentPath.fromVec segs isAbs) = true := by
  constructor
  · intro a b
    constructor
    · unfold ComponentPath.eq
      exact beq_iff_eq
    · rfl
  · intro s segs isAbs p hparse hts
    unfold ComponentPath.eq
    rw [hts]
    exact beq_self_eq_true _

/-- Witness for claim C10: the path parsed from "/a/b" equals the path
built from the segment vector [a, b] with the absolute flag. -/
theorem path_eq_toString_witness :
    ComponentPath.eq ⟨[['a'], ['b']], true⟩ (ComponentPath.fromVec [['a'], ['b']] true)
      = true :=
  path_eq_toString.2 "/a/b" [['a'], ['b']] true ⟨[['a'], ['b']], true⟩ rfl rfl

end OpenSim
